import Mathlib

/-!
Verification development for the SSR stream-generation pass
(`llvm/lib/Transforms/SSR/SSRGeneration.cpp` of the pulp-platform LLVM fork).

The pass's core data structures and algorithms are embedded shallowly:
machine `unsigned` values become `Nat`, `int` becomes `Int`, loop pointers
become `Nat` labels, and the stateful traversals become explicit folds.
Each definition mirrors one function of the source file.
-/

/-! ## Conflict tree (`ConflictTree` in SSRGeneration.cpp)

A node carries the loop it stands for (a label), the unsigned value inserted
by `visitLoop`, and the list of child subtrees (`children` map of the C++
class, here stored structurally). -/

inductive CTree : Type where
  | node (label : Nat) (value : Nat) (children : List CTree)

def CTree.label : CTree → Nat
  | .node l _ _ => l

def CTree.value : CTree → Nat
  | .node _ v _ => v

def CTree.childrenOf : CTree → List CTree
  | .node _ _ cs => cs

mutual

/-- All labels in the tree, root first (`values` key set of the C++ class). -/
def CTree.labels : CTree → List Nat
  | .node l _ cs => l :: CTree.labelsList cs

def CTree.labelsList : List CTree → List Nat
  | [] => []
  | c :: cs => CTree.labels c ++ CTree.labelsList cs

end

mutual

/-- `ConflictTree::findBest` (private recursive overload).  Returns the best
combined value of the subtree together with the selected labels, mirroring
the C++ code: child selections are accumulated in order; if their combined
value exceeds the node's own value they are kept, otherwise they are
discarded (the `res.pop_back()` loop) and the node itself is selected. -/
def CTree.findBest (f : Nat → Nat → Nat) : CTree → Nat × List Nat
  | .node l v cs =>
    let p := CTree.findBestChildren f 0 cs
    if p.1 > v then p else (v, [l])

/-- The `for (const NodeT *C : chs) val = combineFunc(val, findBest(C, ...))`
loop: `acc` is the running combined value, selections are appended. -/
def CTree.findBestChildren (f : Nat → Nat → Nat) (acc : Nat) : List CTree → Nat × List Nat
  | [] => (acc, [])
  | c :: cs =>
    let r := CTree.findBest f c
    let rest := CTree.findBestChildren f (f acc r.1) cs
    (rest.1, r.2 ++ rest.2)

end

/-- `s` is a subtree of `t` (reflexive). -/
inductive CTree.Subtree : CTree → CTree → Prop where
  | refl (t : CTree) : CTree.Subtree t t
  | child {s c : CTree} {l v : Nat} {cs : List CTree} :
      c ∈ cs → CTree.Subtree s c → CTree.Subtree s (CTree.node l v cs)

/-- Labels of the proper descendants of a node. -/
def CTree.properDesc (t : CTree) : List Nat :=
  CTree.labelsList t.childrenOf

/-- `a` is a strict tree-wise ancestor of `b` inside `t`: some subtree of `t`
is labelled `a` and has `b` strictly below it. -/
def CTree.Anc (t : CTree) (a b : Nat) : Prop :=
  ∃ s, CTree.Subtree s t ∧ s.label = a ∧ b ∈ s.properDesc

/-- Abbreviation for the no-ancestor property of one tree's selection. -/
def CTree.NoAncSel (f : Nat → Nat → Nat) (t : CTree) : Prop :=
  t.labels.Nodup →
    ∀ a b, a ∈ (t.findBest f).2 → b ∈ (t.findBest f).2 → ¬ t.Anc a b

/-! ## Gain estimator (`getEstExpandCost`, `getEstGain`)

An `AffAcc` models the external affine access at one fixed loop `L`:
`dim` is `loopToDimension(L)`, `baseAddrSize d` the `getExpressionSize()`
of `getBaseAddr(d)`, `stepSize d`/`repSize d` those of `getStep(d)`/
`getRep(d)`, `repConst d` is `some v` when `getRep(d)` is a `SCEVConstant`
of value `v` (already limited to `int` max), `loopAt d` identifies
`getLoop(d)`, and `conflicts` lists `getConflicts(L)` as pairs of the id
of the other access and the conflict kind.  Accesses are referenced by
`Nat` ids through an environment `env`. -/

inductive AffAccConflict : Type where
  | noConflict
  | mustNotIntersect
  | bad
deriving DecidableEq

structure AffAcc : Type where
  dim : Nat
  baseAddrSize : Nat → Nat
  stepSize : Nat → Nat
  repSize : Nat → Nat
  repConst : Nat → Option Nat
  loopAt : Nat → Nat
  conflicts : List (Nat × AffAccConflict)
  write : Bool

def EST_LOOP_TC : Int := 25
def EST_MUL_COST : Int := 3
def EST_MEMOP_COST : Int := 2

/-- The `for (unsigned i = 1; i < dim; i++)` accumulation in
`getEstExpandCost`: contributions of iterations `i = 1 .. n`. -/
def expandCostAux (A : AffAcc) : Nat → Int
  | 0 => 0
  | n + 1 =>
    expandCostAux A n +
      ((A.stepSize (n + 1) : Int) + (A.repSize (n + 1) : Int) + EST_MUL_COST +
        (if 1 < n + 1 then 1 else 0))

/-- `getEstExpandCost(AffAcc *A, unsigned dim)`: expression size of the base
address plus the per-dimension loop, which runs `i` from `1` while `i < dim`. -/
def getEstExpandCost (A : AffAcc) (dim : Nat) : Int :=
  (A.baseAddrSize dim : Int) + expandCostAux A (dim - 1)

/-- The per-spec rendering of the expand cost, for comparison with the
code.  Modelled from the spec: `expression_size(baseAddr(a)) +
Σ_{d=1..dim(a)} (expression_size(step(a,d)) + expression_size(rep(a,d)) +
MUL_COST + (d>1 ? 1 : 0))`, with the inner sum running up to `dim`
inclusive. -/
def getEstExpandCostSpec (A : AffAcc) (dim : Nat) : Int :=
  (A.baseAddrSize dim : Int) +
    ∑ d ∈ Finset.Icc 1 dim,
      ((A.stepSize d : Int) + (A.repSize d : Int) + EST_MUL_COST +
        (if 1 < d then 1 else 0))

/-- `int loopTC = EST_LOOP_TC;` overridden when `getRep(d)` is constant. -/
def loopTC (A : AffAcc) (d : Nat) : Int :=
  match A.repConst d with
  | some v => (v : Int)
  | none => EST_LOOP_TC

/-- The `reps` loop of `getEstGain`: `for (unsigned d = dim; d >= 1; d--)
reps = std::max(reps * loopTC, reps);`, processing `d` downwards with
running value `r` (the saturation that guards against overflow). -/
def repsAux (A : AffAcc) : Nat → Int → Int
  | 0, r => r
  | d + 1, r => repsAux A d (max (r * loopTC A (d + 1)) r)

/-- `DenseSet` insertion (order in the model: prepend if new). -/
def insertNew (s : List Nat) (x : Nat) : List Nat :=
  if x ∈ s then s else x :: s

/-- The `contLoops.insert(A->getLoop(d))` part of the same loop. -/
def contLoopsAux (A : AffAcc) : Nat → List Nat → List Nat
  | 0, s => s
  | d + 1, s => contLoopsAux A d (insertNew s (A.loopAt (d + 1)))

/-- Cost of the intersection checks for one access `A` given the visited
set `vis` (which, as in the source, already contains `A` itself) and the
whole candidate set `accIds`.  A `Bad` conflict asserts in the source;
theorems about runs that can hit it carry a no-`bad` hypothesis. -/
def conflictCost (env : Nat → AffAcc) (accIds : List Nat) (vis : List Nat)
    (A : AffAcc) : Int :=
  A.conflicts.foldl
    (fun c p =>
      match p.2 with
      | .noConflict => c
      | .mustNotIntersect =>
        if p.1 ∈ vis then c
        else
          c + (if p.1 ∈ accIds then 0 else getEstExpandCost (env p.1) (env p.1).dim) + 4
      | .bad => c)
    0

structure GainFlags : Type where
  noIntersectCheck : Bool
  noTCDMCheck : Bool
  noBoundCheck : Bool
deriving DecidableEq

/-- One iteration of the `for (AffAcc *A : Accs)` loop of `getEstGain`:
state is (running gain, visited set `vis`, `contLoops`). -/
def gainStep (fl : GainFlags) (memop : Int) (env : Nat → AffAcc) (accIds : List Nat)
    (st : Int × List Nat × List Nat) (id : Nat) : Int × List Nat × List Nat :=
  let A := env id
  let vis := insertNew st.2.1 id
  let g1 := st.1 - getEstExpandCost A A.dim
  let g2 := if fl.noIntersectCheck then g1 else g1 - conflictCost env accIds vis A
  let g3 := if fl.noTCDMCheck then g2 else g2 - 4
  let g4 := g3 + memop * repsAux A A.dim 1
  (g4, vis, contLoopsAux A A.dim st.2.2)

/-- `getEstGain(ArrayRef<AffAcc *> Accs, const Loop *L, ...)`, parameterized
by the `EST_MEMOP_COST` constant `memop` so that its influence can be
stated.  The source value is `EST_MEMOP_COST = 2`. -/
def getEstGain (fl : GainFlags) (memop : Int) (env : Nat → AffAcc)
    (accIds : List Nat) : Int :=
  let st := accIds.foldl (gainStep fl memop env accIds) (0, [], [])
  if fl.noBoundCheck then st.1 else st.1 - 2 * (st.2.2.length : Int)

/-- No `Bad` conflict is reachable for the candidate set (the source
asserts on `AffAccConflict::Bad`). -/
def NoBadConflict (env : Nat → AffAcc) (accIds : List Nat) : Prop :=
  ∀ id ∈ accIds, ∀ p ∈ (env id).conflicts, p.2 ≠ AffAccConflict.bad

/-! ## Access filter ordering (`visitLoop` comparator, `NUM_SSR` cap)

`AccC` keeps only what the comparator reads at a fixed loop `L`:
`loopToDimension(L)` and `isWrite()`.  `std::sort` with a strict weak
ordering returns some permutation that is sorted with respect to the
comparator; the model uses insertion sort, one such output. -/

def NUM_SSR : Nat := 3
def SSR_MAX_DIM : Nat := 4

structure AccC : Type where
  dim : Nat
  write : Bool
deriving DecidableEq

/-- The lambda `comp` in `visitLoop`:
`dimA < dimB || (dimA == dimB && (!A->isWrite() && B->isWrite()))`. -/
def accLT (a b : AccC) : Bool :=
  a.dim < b.dim || (a.dim == b.dim && (!a.write && b.write))

def insertSorted (x : AccC) : List AccC → List AccC
  | [] => [x]
  | y :: ys => if accLT x y then x :: y :: ys else y :: insertSorted x ys

/-- The `std::sort(valid.begin(), valid.end(), comp)` call, modelled as
insertion sort with the same comparator. -/
def sortAccs : List AccC → List AccC
  | [] => []
  | x :: xs => insertSorted x (sortAccs xs)

/-- The candidate set for a loop: the first `NUM_SSR` entries of the sorted
valid accesses (the `for (unsigned i = 0u; i < NUM_SSR && i < valid.size()...`
loop). -/
def candidateSet (valid : List AccC) : List AccC :=
  (sortAccs valid).take NUM_SSR

/-! ## TCDM (scratchpad) range checks (`GenerateTCDMCheck`, `expandInLoop`)

Addresses are unsigned machine integers; `CreateICmpULE` is `≤` on their
values, modelled on `Nat`. -/

def SSR_SCRATCHPAD_BEGIN : Nat := 0x100000
def SSR_SCRATCHPAD_END : Nat := 0x120000

/-- The materialized address range of one `ExpandedAffAcc`. -/
structure ExpandedAffAcc : Type where
  LowerBound : Nat
  UpperBound : Nat
deriving DecidableEq

/-- `GenerateTCDMCheck`: `(SCRATCHPAD_BEGIN ule LowerBound) and
(UpperBound ule SCRATCHPAD_END)`. -/
def GenerateTCDMCheck (E : ExpandedAffAcc) : Bool :=
  decide (SSR_SCRATCHPAD_BEGIN ≤ E.LowerBound) &&
    decide (E.UpperBound ≤ SSR_SCRATCHPAD_END)

/-- The `for (auto &E : exp) Cond = builder.CreateAnd(Cond, GenerateTCDMCheck(E))`
loop of `expandInLoop` (entered only when the TCDM check is enabled). -/
def tcdmFoldCond (exp : List ExpandedAffAcc) (cond : Bool) : Bool :=
  exp.foldl (fun c e => c && GenerateTCDMCheck e) cond

/-- Guard condition produced by `expandInLoop` on top of the analysis
condition `cond`, honouring the `ssr-no-tcdm-check` flag. -/
def expandInLoopCond (noTCDMCheck : Bool) (exp : List ExpandedAffAcc)
    (cond : Bool) : Bool :=
  if noTCDMCheck then cond else tcdmFoldCond exp cond

/-! ## Intrinsic emission and region cloning (`cloneAndSetup`)

The emission is abstracted to the sequence of calls placed at the
preheader terminator (`ph`) and at the exit block's first insertion point
(`ex`), plus a flag recording whether `cloneRegion` ran.  `IRBuilder`
inserts before its point, so calls appear in emission order at each
point. -/

inductive EmitAct : Type where
  | setup (dmid : Nat)
  | ssrBarrier (arg : Nat)
  | enable
  | disable
deriving DecidableEq

structure EmitResult : Type where
  cloned : Bool
  ph : List EmitAct
  ex : List EmitAct
deriving DecidableEq

/-- The guard value `Cond` as `cloneAndSetup` sees it: either a runtime
value (not a `ConstantInt`) or a compile-time constant boolean. -/
inductive CondV : Type where
  | runtime
  | const (b : Bool)
deriving DecidableEq

/-- Preheader emission: `GenerateSSRSetup(E, dmid++)` for each access in
order, then `generateSSREnDis`s `ssr_enable`. -/
def phSeq (n : Nat) : List EmitAct :=
  ((List.range n).map EmitAct.setup) ++ [EmitAct.enable]

/-- Exit emission: when the barrier flag is on, the loop body calls
`generateSSRBarrier(ExP, dmid)` after `dmid++`, so stream `i` produces a
barrier with argument `i + 1`; `ssr_disable` is emitted last. -/
def exSeq (barrierFlag : Bool) (n : Nat) : List EmitAct :=
  (if barrierFlag then (List.range n).map (fun i => EmitAct.ssrBarrier (i + 1)) else [])
    ++ [EmitAct.disable]

/-- `cloneAndSetup(PhT, ExP, Cond, exp)`: early return on empty `exp`;
clone the region only when `Cond` is not a compile-time constant;
a constant-false `Cond` aborts before emitting anything. -/
def cloneAndSetup (barrierFlag : Bool) (cond : CondV) (exp : List Nat) : EmitResult :=
  if exp.length = 0 then ⟨false, [], []⟩
  else
    match cond with
    | .runtime => ⟨true, phSeq exp.length, exSeq barrierFlag exp.length⟩
    | .const b =>
      if b then ⟨false, phSeq exp.length, exSeq barrierFlag exp.length⟩
      else ⟨false, [], []⟩

/-! ## Pass driver (`visitLoop`, `SSRGenerationPass::run`)

A `LoopNest` is one top-level loop with its sub-loop structure; per loop it
records the candidate set built by `visitLoop` (access ids, already capped
at `NUM_SSR`) and the estimated gain `getEstGain` returned for it. -/

inductive LoopNest : Type where
  | node (label : Nat) (cands : List Nat) (gain : Int) (subs : List LoopNest)

/-- `unsigned val = (unsigned)std::max(0, gain);` in `visitLoop`. -/
def visitVal (gain : Int) : Nat := (max 0 gain).toNat

mutual

/-- The conflict tree built by the `visitLoop` traversal: each loop is
inserted with value `visitVal` of its estimated gain. -/
def LoopNest.toTree : LoopNest → CTree
  | .node l _ g subs => CTree.node l (visitVal g) (LoopNest.toTreeList subs)

def LoopNest.toTreeList : List LoopNest → List CTree
  | [] => []
  | t :: ts => LoopNest.toTree t :: LoopNest.toTreeList ts

end

mutual

/-- The `possible` map: candidates of the loop labelled `x`, if present. -/
def LoopNest.candsOf : LoopNest → Nat → Option (List Nat)
  | .node l c _ subs, x => if x = l then some c else LoopNest.candsOfList subs x

def LoopNest.candsOfList : List LoopNest → Nat → Option (List Nat)
  | [], _ => none
  | t :: ts, x =>
    match LoopNest.candsOf t x with
    | some c => some c
    | none => LoopNest.candsOfList ts x

end

mutual

/-- Every loop of the nest has an empty candidate set. -/
def LoopNest.allCandsEmpty : LoopNest → Bool
  | .node _ c _ subs => c.isEmpty && LoopNest.allCandsEmptyList subs

def LoopNest.allCandsEmptyList : List LoopNest → Bool
  | [] => true
  | t :: ts => LoopNest.allCandsEmpty t && LoopNest.allCandsEmptyList ts

end

mutual

/-- Every loop of the nest has an empty candidate set or a negative gain
(the premise of the no-change claim). -/
def LoopNest.allEmptyOrNeg : LoopNest → Bool
  | .node _ c g subs =>
    (c.isEmpty || decide (g < 0)) && LoopNest.allEmptyOrNegList subs

def LoopNest.allEmptyOrNegList : List LoopNest → Bool
  | [] => true
  | t :: ts => LoopNest.allEmptyOrNeg t && LoopNest.allEmptyOrNegList ts

end

/-- The combining function passed to `findBest` by the driver:
`auto f = [](unsigned a, unsigned b){ return a + b; };`. -/
def driverCombine : Nat → Nat → Nat := fun a b => a + b

/-- One top-level loop contributes a change iff some loop selected by
`findBest` has a non-empty candidate set (the `if (!acc.empty())
changed = true;` loop of `run`). -/
def topLoopChanged (T : LoopNest) : Bool :=
  ((T.toTree.findBest driverCombine).2).any
    (fun l => !((T.candsOf l).getD []).isEmpty)

def passChanged (tops : List LoopNest) : Bool :=
  tops.any topLoopChanged

/-- Function state the pass reads and writes: the `SSR` attribute, the
`NoInline` attribute, and the loop forest. -/
structure FuncModel : Type where
  hasSSRAttr : Bool
  hasNoInline : Bool
  tops : List LoopNest

/-- `SSRGenerationPass::run`, returning the function state and whether all
analyses are preserved (`PreservedAnalyses::all()` vs `none()`). -/
def SSRGenerationRun (inferSSR ssrNoInline : Bool) (F : FuncModel) :
    FuncModel × Bool :=
  if !inferSSR then (F, true)
  else if F.hasSSRAttr then (F, true)
  else if passChanged F.tops then
    ({ F with hasSSRAttr := true, hasNoInline := F.hasNoInline || ssrNoInline }, false)
  else (F, true)

/-- Concrete access used as counterexample input: one-dimensional, all
expression sizes 1 except a base address of size 2, no conflicts. -/
def accA0 : AffAcc :=
  ⟨1, fun _ => 2, fun _ => 1, fun _ => 1, fun _ => none, fun _ => 0, [], false⟩

/-- Concrete loop nest: a single loop with a non-empty candidate set `[5]`
and estimated gain `-1`. -/
def negGainNest : LoopNest := LoopNest.node 0 [5] (-1) []

def negGainFunc : FuncModel := ⟨false, false, [negGainNest]⟩

/-! ## Theorems: conflict tree selection -/

theorem CTree.labels_eq (l v : Nat) (cs : List CTree) :
    (CTree.node l v cs).labels = l :: CTree.labelsList cs := rfl

theorem CTree.mem_labelsList_iff {x : Nat} {cs : List CTree} :
    x ∈ CTree.labelsList cs ↔ ∃ c ∈ cs, x ∈ c.labels := by
  induction cs with
  | nil => simp [CTree.labelsList]
  | cons c cs ih =>
    simp [CTree.labelsList, ih]

theorem CTree.label_mem_labels (t : CTree) : t.label ∈ t.labels := by
  cases t with
  | node l v cs => simp [CTree.labels, CTree.label]

theorem CTree.subtree_labels_sub {s t : CTree} (h : CTree.Subtree s t) :
    ∀ x ∈ s.labels, x ∈ t.labels := by
  induction h with
  | refl => exact fun x hx => hx
  | child hc _ ih =>
    intro x hx
    rw [CTree.labels_eq]
    right
    exact CTree.mem_labelsList_iff.mpr ⟨_, hc, ih x hx⟩

theorem CTree.properDesc_sub_labels {s : CTree} :
    ∀ x ∈ s.properDesc, x ∈ s.labels := by
  cases s with
  | node l v cs =>
    intro x hx
    rw [CTree.labels_eq]
    right
    exact hx

theorem CTree.anc_mem_labels {t : CTree} {a b : Nat} (h : t.Anc a b) :
    a ∈ t.labels ∧ b ∈ t.labels := by
  obtain ⟨s, hsub, hl, hb⟩ := h
  constructor
  · exact CTree.subtree_labels_sub hsub a (hl ▸ CTree.label_mem_labels s)
  · exact CTree.subtree_labels_sub hsub b (CTree.properDesc_sub_labels b hb)

/-- Decomposition of the ancestor relation at a node. -/
theorem CTree.anc_node_iff {l v : Nat} {cs : List CTree} {a b : Nat} :
    (CTree.node l v cs).Anc a b ↔
      (a = l ∧ b ∈ CTree.labelsList cs) ∨ ∃ c ∈ cs, c.Anc a b := by
  constructor
  · rintro ⟨s, hsub, hl, hb⟩
    cases hsub with
    | refl =>
      left
      exact ⟨hl.symm, hb⟩
    | child hc hs =>
      right
      exact ⟨_, hc, s, hs, hl, hb⟩
  · rintro (⟨ha, hb⟩ | ⟨c, hc, s, hs, hl, hb⟩)
    · exact ⟨CTree.node l v cs, CTree.Subtree.refl _, ha ▸ rfl, hb⟩
    · exact ⟨s, CTree.Subtree.child hc hs, hl, hb⟩

/-- Strong induction over the nested tree: to prove `P t` it suffices to
prove it at each node assuming it for all children. -/
theorem CTree.inductionOn {P : CTree → Prop}
    (h : ∀ l v cs, (∀ c ∈ cs, P c) → P (CTree.node l v cs)) : ∀ t, P t
  | .node l v cs => h l v cs (fun c hc => CTree.inductionOn h c)
termination_by t => sizeOf t
decreasing_by
  have := List.sizeOf_lt_of_mem hc
  simp only [CTree.node.sizeOf_spec]
  omega

theorem CTree.findBestChildren_sel_subH (f : Nat → Nat → Nat) (cs : List CTree)
    (H : ∀ c ∈ cs, ∀ a ∈ (c.findBest f).2, a ∈ c.labels) :
    ∀ acc a, a ∈ (CTree.findBestChildren f acc cs).2 → a ∈ CTree.labelsList cs := by
  induction cs with
  | nil => intro acc a ha; simp [CTree.findBestChildren] at ha
  | cons c cs ih =>
    intro acc a ha
    simp only [CTree.findBestChildren, List.mem_append] at ha
    rcases ha with ha | ha
    · exact CTree.mem_labelsList_iff.mpr ⟨c, List.mem_cons_self c cs, H c (List.mem_cons_self c cs) a ha⟩
    · have := ih (fun d hd => H d (List.mem_cons_of_mem c hd)) (f acc ((c.findBest f).1)) a ha
      rw [CTree.mem_labelsList_iff] at this ⊢
      obtain ⟨d, hd, hx⟩ := this
      exact ⟨d, List.mem_cons_of_mem c hd, hx⟩

/-- Every selected label is a label of the tree. -/
theorem CTree.findBest_sel_sub (f : Nat → Nat → Nat) (t : CTree) :
    ∀ a ∈ (t.findBest f).2, a ∈ t.labels := by
  induction t using CTree.inductionOn with
  | h l v cs ih =>
    intro a ha
    rw [CTree.findBest] at ha
    by_cases hc : (CTree.findBestChildren f 0 cs).1 > v
    · simp only [hc, if_pos] at ha
      rw [CTree.labels_eq]
      exact List.mem_cons_of_mem l (CTree.findBestChildren_sel_subH f cs ih 0 a ha)
    · simp only [hc, if_neg, not_false_iff] at ha
      simp only [List.mem_singleton] at ha
      subst ha
      exact CTree.label_mem_labels _

theorem CTree.findBestChildren_sel_sub (f : Nat → Nat → Nat) (cs : List CTree) :
    ∀ acc a, a ∈ (CTree.findBestChildren f acc cs).2 → a ∈ CTree.labelsList cs :=
  CTree.findBestChildren_sel_subH f cs (fun c _ => CTree.findBest_sel_sub f c)

theorem CTree.noAncChildren (f : Nat → Nat → Nat) (cs : List CTree)
    (H : ∀ c ∈ cs, CTree.NoAncSel f c) (hnd : (CTree.labelsList cs).Nodup) :
    ∀ acc a b, a ∈ (CTree.findBestChildren f acc cs).2 →
      b ∈ (CTree.findBestChildren f acc cs).2 → ∀ c ∈ cs, ¬ c.Anc a b := by
  induction cs with
  | nil => intro acc a b ha _ c hc; simp at hc
  | cons c cs ih =>
    intro acc a b ha hb c' hc' hanc
    simp only [CTree.labelsList, List.nodup_append] at hnd
    obtain ⟨hndc, hndcs, hdisj⟩ := hnd
    obtain ⟨hal, hbl⟩ := CTree.anc_mem_labels hanc
    simp only [CTree.findBestChildren, List.mem_append] at ha hb
    rcases List.mem_cons.mp hc' with rfl | hc'
    · -- the ancestor witness is the head child
      rcases ha with ha | ha
      · rcases hb with hb | hb
        · exact H c' (List.mem_cons_self c' cs) hndc a b ha hb hanc
        · have hbcs : b ∈ CTree.labelsList cs :=
            CTree.findBestChildren_sel_sub f cs _ b hb
          exact hdisj hbl hbcs
      · have hacs : a ∈ CTree.labelsList cs :=
          CTree.findBestChildren_sel_sub f cs _ a ha
        exact hdisj hal hacs
    · -- the ancestor witness is in the tail
      have halist : a ∈ CTree.labelsList cs :=
        CTree.mem_labelsList_iff.mpr ⟨c', hc', hal⟩
      have hblist : b ∈ CTree.labelsList cs :=
        CTree.mem_labelsList_iff.mpr ⟨c', hc', hbl⟩
      rcases ha with ha | ha
      · exact hdisj (CTree.findBest_sel_sub f c a ha) halist
      · rcases hb with hb | hb
        · exact hdisj (CTree.findBest_sel_sub f c b hb) hblist
        · exact ih (fun d hd => H d (List.mem_cons_of_mem c hd)) hndcs _ a b ha hb c' hc' hanc

/-- Helper form of the selection invariant, by strong induction. -/
theorem CTree.findBest_noAncSel (f : Nat → Nat → Nat) (t : CTree) : CTree.NoAncSel f t := by
  induction t using CTree.inductionOn with
  | h l v cs ih =>
    intro hnd a b ha hb hanc
    rw [CTree.labels_eq, List.nodup_cons] at hnd
    obtain ⟨hlnotin, hndcs⟩ := hnd
    rw [CTree.findBest] at ha hb
    by_cases hgt : (CTree.findBestChildren f 0 cs).1 > v
    · simp only [hgt, if_pos] at ha hb
      rcases CTree.anc_node_iff.mp hanc with ⟨rfl, hbdesc⟩ | ⟨c, hc, hanc'⟩
      · exact hlnotin (CTree.findBestChildren_sel_sub f cs 0 a ha)
      · exact CTree.noAncChildren f cs ih hndcs 0 a b ha hb c hc hanc'
    · simp only [hgt, if_neg, not_false_iff, List.mem_singleton] at ha hb
      subst ha; subst hb
      rcases CTree.anc_node_iff.mp hanc with ⟨_, hbdesc⟩ | ⟨c, hc, hanc'⟩
      · exact hlnotin hbdesc
      · exact hlnotin (CTree.mem_labelsList_iff.mpr
          ⟨c, hc, (CTree.anc_mem_labels hanc').1⟩)

/-! ## Theorems: gain estimator -/

/-- The saturating trip product never drops below its (positive) seed. -/
theorem repsAux_ge (A : AffAcc) : ∀ (d : Nat) (r : Int), 1 ≤ r → 1 ≤ repsAux A d r := by
  intro d
  induction d with
  | zero => intro r hr; simpa [repsAux] using hr
  | succ d ih =>
    intro r hr
    exact ih _ (le_trans hr (le_max_right _ _))

/-- The gain fold is monotone in `memop` in its first component and its
visited/`contLoops` state does not depend on `memop` or the running gain. -/
theorem gainFold_mono (fl : GainFlags) (env : Nat → AffAcc) (accIds : List Nat)
    {m1 m2 : Int} (hm : m1 ≤ m2) :
    ∀ (l : List Nat) (g1 g2 : Int) (vis cont : List Nat), g1 ≤ g2 →
      (l.foldl (gainStep fl m1 env accIds) (g1, vis, cont)).1 ≤
        (l.foldl (gainStep fl m2 env accIds) (g2, vis, cont)).1 ∧
      (l.foldl (gainStep fl m1 env accIds) (g1, vis, cont)).2 =
        (l.foldl (gainStep fl m2 env accIds) (g2, vis, cont)).2 := by
  intro l
  induction l with
  | nil => intro g1 g2 vis cont hg; exact ⟨hg, rfl⟩
  | cons id l ih =>
    intro g1 g2 vis cont hg
    simp only [List.foldl_cons]
    have hreps : (1 : Int) ≤ repsAux (env id) (env id).dim 1 :=
      repsAux_ge (env id) (env id).dim 1 le_rfl
    have hmul : m1 * repsAux (env id) (env id).dim 1 ≤
        m2 * repsAux (env id) (env id).dim 1 :=
      mul_le_mul_of_nonneg_right hm (by linarith)
    have hstep :
        (gainStep fl m1 env accIds (g1, vis, cont) id).1 ≤
          (gainStep fl m2 env accIds (g2, vis, cont) id).1 := by
      simp only [gainStep]
      by_cases h1 : fl.noIntersectCheck <;> by_cases h2 : fl.noTCDMCheck <;>
        simp [h1, h2] <;> linarith
    have hsnd :
        (gainStep fl m1 env accIds (g1, vis, cont) id).2 =
          (gainStep fl m2 env accIds (g2, vis, cont) id).2 := rfl
    have := ih (gainStep fl m1 env accIds (g1, vis, cont) id).1
      (gainStep fl m2 env accIds (g2, vis, cont) id).1
      (insertNew vis id) (contLoopsAux (env id) (env id).dim cont) hstep
    have e1 : (gainStep fl m1 env accIds (g1, vis, cont) id) =
        ((gainStep fl m1 env accIds (g1, vis, cont) id).1,
          insertNew vis id, contLoopsAux (env id) (env id).dim cont) := rfl
    have e2 : (gainStep fl m2 env accIds (g2, vis, cont) id) =
        ((gainStep fl m2 env accIds (g2, vis, cont) id).1,
          insertNew vis id, contLoopsAux (env id) (env id).dim cont) := rfl
    rw [e1, e2]
    exact this

/-- Monotonicity of the estimated gain in the `EST_MEMOP_COST` parameter. -/
theorem getEstGain_mono_aux (fl : GainFlags) (env : Nat → AffAcc)
    (accIds : List Nat) {m1 m2 : Int} (hm : m1 ≤ m2) :
    getEstGain fl m1 env accIds ≤ getEstGain fl m2 env accIds := by
  have h := gainFold_mono fl env accIds hm accIds 0 0 [] [] le_rfl
  simp only [getEstGain]
  by_cases hb : fl.noBoundCheck
  · simpa [hb] using h.1
  · have h2 := h.2
    have he : (accIds.foldl (gainStep fl m1 env accIds) (0, [], [])).2.2 =
        (accIds.foldl (gainStep fl m2 env accIds) (0, [], [])).2.2 := by
      rw [h2]
    simp only [hb, if_false, he]
    simp
    linarith [h.1]

/-- Closed form of the `getEstExpandCost` loop contributions. -/
theorem expandCostAux_eq_sum (A : AffAcc) (n : Nat) :
    expandCostAux A n =
      ∑ i ∈ Finset.range n,
        ((A.stepSize (i + 1) : Int) + (A.repSize (i + 1) : Int) + EST_MUL_COST +
          (if 1 < i + 1 then 1 else 0)) := by
  induction n with
  | zero => simp [expandCostAux]
  | succ n ih => rw [expandCostAux, ih, Finset.sum_range_succ]

/-- The gain of a single access with all checks disabled. -/
theorem getEstGain_single (m : Int) (env : Nat → AffAcc) (id : Nat) :
    getEstGain ⟨true, true, true⟩ m env [id] =
      m * repsAux (env id) (env id).dim 1 -
        getEstExpandCost (env id) (env id).dim := by
  simp [getEstGain, gainStep]
  ring

/-! ## Theorems: candidate ordering -/

theorem accLT_asymm {x y : AccC} (h : accLT x y = true) : accLT y x = false := by
  rcases x with ⟨dx, wx⟩
  rcases y with ⟨dy, wy⟩
  simp only [accLT] at h ⊢
  cases wx <;> cases wy <;> simp_all <;> omega

theorem accLT_negtrans {x y z : AccC} (h : accLT x y = true)
    (h2 : accLT z y = false) : accLT z x = false := by
  rcases x with ⟨dx, wx⟩
  rcases y with ⟨dy, wy⟩
  rcases z with ⟨dz, wz⟩
  simp only [accLT] at h h2 ⊢
  cases wx <;> cases wy <;> cases wz <;> simp_all <;> omega

/-- Membership in an insertion. -/
theorem mem_insertSorted {x b : AccC} : ∀ {l : List AccC},
    b ∈ insertSorted x l ↔ b = x ∨ b ∈ l := by
  intro l
  induction l with
  | nil => simp [insertSorted]
  | cons y ys ih =>
    by_cases hxy : accLT x y = true
    · simp [insertSorted, hxy]
    · simp only [insertSorted, if_neg hxy, List.mem_cons, ih]
      tauto

/-- Inserting keeps the list sorted with respect to the comparator. -/
theorem insertSorted_sorted (x : AccC) (l : List AccC)
    (h : l.Pairwise (fun a b => accLT b a = false)) :
    (insertSorted x l).Pairwise (fun a b => accLT b a = false) := by
  induction l with
  | nil => simp [insertSorted]
  | cons y ys ih =>
    rw [List.pairwise_cons] at h
    obtain ⟨hy, hys⟩ := h
    by_cases hxy : accLT x y = true
    · rw [insertSorted, if_pos hxy, List.pairwise_cons]
      constructor
      · intro b hb
        rcases List.mem_cons.mp hb with rfl | hb
        · exact accLT_asymm hxy
        · exact accLT_negtrans hxy (hy b hb)
      · exact List.pairwise_cons.mpr ⟨hy, hys⟩
    · have hxyf : accLT x y = false := by
        revert hxy
        cases accLT x y <;> simp
      rw [insertSorted, if_neg hxy, List.pairwise_cons]
      constructor
      · intro b hb
        rcases mem_insertSorted.mp hb with rfl | hb
        · exact hxyf
        · exact hy b hb
      · exact ih hys

/-- The modelled `std::sort` output is sorted for the comparator. -/
theorem sortAccs_sorted (l : List AccC) :
    (sortAccs l).Pairwise (fun a b => accLT b a = false) := by
  induction l with
  | nil => simp [sortAccs]
  | cons x xs ih => exact insertSorted_sorted x (sortAccs xs) ih

/-- The candidate set keeps that order. -/
theorem candidateSet_sorted (l : List AccC) :
    (candidateSet l).Pairwise (fun a b => accLT b a = false) :=
  (sortAccs_sorted l).sublist (List.take_sublist NUM_SSR (sortAccs l))

theorem candidateSet_len (l : List AccC) : (candidateSet l).length ≤ NUM_SSR := by
  rw [candidateSet]
  exact List.length_take_le NUM_SSR (sortAccs l)

/-- Reading the comparator: a sorted adjacent pair has ascending dimension,
and at equal dimension a write is never followed by a read. -/
theorem accLT_false_imp {a b : AccC} (h : accLT b a = false) :
    a.dim ≤ b.dim ∧ (a.dim = b.dim → a.write = true → b.write = true) := by
  rcases a with ⟨da, wa⟩
  rcases b with ⟨db, wb⟩
  simp only [accLT] at h
  cases wa <;> cases wb <;> simp_all <;> omega

/-! ## Theorems: TCDM checks -/

theorem tcdmFoldCond_eq (exp : List ExpandedAffAcc) (cond : Bool) :
    tcdmFoldCond exp cond = (cond && exp.all GenerateTCDMCheck) := by
  induction exp generalizing cond with
  | nil => simp [tcdmFoldCond]
  | cons e es ih =>
    simp only [tcdmFoldCond, List.foldl_cons] at ih ⊢
    rw [ih, List.all_cons]
    cases cond <;> cases GenerateTCDMCheck e <;> simp

/-! ## Theorems: pass driver helpers -/

/-- Strong induction over loop nests. -/
theorem LoopNest.nestInduction {P : LoopNest → Prop}
    (h : ∀ l c g subs, (∀ t ∈ subs, P t) → P (LoopNest.node l c g subs)) : ∀ t, P t
  | .node l c g subs => h l c g subs (fun t ht => LoopNest.nestInduction h t)
termination_by t => sizeOf t
decreasing_by
  have := List.sizeOf_lt_of_mem ht
  simp only [LoopNest.node.sizeOf_spec]
  omega

theorem LoopNest.candsOfList_empty (subs : List LoopNest)
    (H : ∀ t ∈ subs, ∀ x, ((t.candsOf x).getD []).isEmpty = true)
    (x : Nat) : ((LoopNest.candsOfList subs x).getD []).isEmpty = true := by
  induction subs with
  | nil => simp [LoopNest.candsOfList]
  | cons t ts ih =>
    simp only [LoopNest.candsOfList]
    cases h : t.candsOf x with
    | none => exact ih (fun d hd => H d (List.mem_cons_of_mem t hd))
    | some c =>
      have := H t (List.mem_cons_self t ts) x
      rw [h] at this
      simpa using this

/-- If every loop of the nest has an empty candidate set, every lookup in
the `possible` map yields an empty set. -/
theorem LoopNest.candsOf_empty (T : LoopNest) (h : T.allCandsEmpty = true) :
    ∀ x, ((T.candsOf x).getD []).isEmpty = true := by
  induction T using LoopNest.nestInduction with
  | h l c g subs ih =>
    intro x
    rw [LoopNest.allCandsEmpty, Bool.and_eq_true] at h
    obtain ⟨hc, hsubs⟩ := h
    rw [LoopNest.candsOf]
    by_cases hx : x = l
    · simpa [hx] using hc
    · rw [if_neg hx]
      refine LoopNest.candsOfList_empty subs ?_ x
      intro t ht
      refine ih t ht ?_
      -- allCandsEmptyList subs = true gives allCandsEmpty for each member
      clear ih hc hx
      induction subs with
      | nil => simp at ht
      | cons s ss ihs =>
        rw [LoopNest.allCandsEmptyList, Bool.and_eq_true] at hsubs
        rcases List.mem_cons.mp ht with rfl | ht'
        · exact hsubs.1
        · exact ihs hsubs.2 ht'

/-- With every candidate set empty, no top-level loop reports a change. -/
theorem passChanged_of_empty (tops : List LoopNest)
    (h : ∀ T ∈ tops, T.allCandsEmpty = true) : passChanged tops = false := by
  rw [passChanged, List.any_eq_false]
  intro T hT
  have hc := LoopNest.candsOf_empty T (h T hT)
  simp [topLoopChanged, hc]

/-! ## Claims -/

/-- C1 (amended): for every access, the gain estimator subtracts the
expression size of the base address plus, for every dimension `d` from `1`
to `dim − 1` inclusive (written `d = i + 1` with `i < dim − 1`; the source
loop `for (i = 1; i < dim; i++)` excludes `dim` itself), the sum
`expression_size(step) + expression_size(rep) + MUL_COST`, plus an extra
`1` for each `d > 1`; for a single access with all checks disabled the
estimator's result is exactly `trip_product × MEMOP_COST` minus this
cost. -/
theorem C1_expand_cost_amended (A : AffAcc) (dim : Nat) (m : Int)
    (env : Nat → AffAcc) (id : Nat) :
    getEstExpandCost A dim =
      (A.baseAddrSize dim : Int) +
        ∑ i ∈ Finset.range (dim - 1),
          ((A.stepSize (i + 1) : Int) + (A.repSize (i + 1) : Int) + EST_MUL_COST +
            (if 1 < i + 1 then 1 else 0)) ∧
    getEstGain ⟨true, true, true⟩ m env [id] =
      m * repsAux (env id) (env id).dim 1 -
        getEstExpandCost (env id) (env id).dim := by
  constructor
  · rw [getEstExpandCost, expandCostAux_eq_sum]
  · exact getEstGain_single m env id

/-- C1 counterexample: on a one-dimensional access the code's cost is just
the base-address expression size, while the claimed formula (inner sum up
to `dim` inclusive) also adds `step`, `rep` and `MUL_COST` for `d = 1`. -/
theorem C1_counterexample :
    getEstExpandCost accA0 1 = 2 ∧ getEstExpandCostSpec accA0 1 = 7 ∧
      getEstExpandCost accA0 1 ≠ getEstExpandCostSpec accA0 1 := by
  refine ⟨by decide, ?_, ?_⟩ <;> decide

/-- C2: with the barrier flag on, the source increments `dmid` in the call
`GenerateSSRSetup(E, dmid++, PhT)` before `generateSSRBarrier(ExP, dmid)`,
so the stream assigned data-mover index `i` gets a barrier with argument
`i + 1`, not `i`: with one chosen access (index 0) the exit block holds
`ssr_barrier(1)` then `ssr_disable`, and no `ssr_barrier(0)` exists; with
three accesses a barrier argument `3` (outside `[0, NUM_SSR)`) is
emitted. -/
theorem C2_barrier_argument_shifted :
    (cloneAndSetup true CondV.runtime [7]).ph = [EmitAct.setup 0, EmitAct.enable] ∧
    (cloneAndSetup true CondV.runtime [7]).ex = [EmitAct.ssrBarrier 1, EmitAct.disable] ∧
    EmitAct.ssrBarrier 0 ∉ (cloneAndSetup true CondV.runtime [7]).ex ∧
    EmitAct.ssrBarrier 3 ∈ (cloneAndSetup true CondV.runtime [5, 6, 7]).ex := by
  refine ⟨by decide, by decide, by decide, by decide⟩

/-- C3 (amended): the candidate set built for a loop contains at most
`NUM_SSR` (3) accesses, and is ordered so that dimensions ascend — smaller
dimensions precede larger ones, not the other way round — and reads
precede writes when the dimensions tie. -/
theorem C3_candidate_order_amended (valid : List AccC) :
    (candidateSet valid).length ≤ NUM_SSR ∧
      (candidateSet valid).Pairwise
        (fun a b => a.dim ≤ b.dim ∧ (a.dim = b.dim → a.write = true → b.write = true)) := by
  refine ⟨candidateSet_len valid, ?_⟩
  exact (candidateSet_sorted valid).imp (fun h => accLT_false_imp h)

/-- C3 counterexample: the claimed ordering (larger dimension first) fails
already on two reads of dimensions 1 and 2: the code's comparator sorts
ascending, so the dimension-1 access comes first. -/
theorem C3_counterexample :
    ¬ (candidateSet [AccC.mk 1 false, AccC.mk 2 false]).Pairwise
        (fun a b => b.dim < a.dim ∨
          (a.dim = b.dim ∧ ¬(a.write = true ∧ b.write = false))) := by
  decide

/-- C4 (amended): if every loop's candidate set is empty the pass makes no
change and returns preserving all analyses.  (The original claim also
allowed loops with negative gain; those are clamped to value 0, can still
be selected, and do change the function — see the counterexample.) -/
theorem C4_no_change_amended (inferSSR ssrNoInline : Bool) (F : FuncModel)
    (h : ∀ T ∈ F.tops, T.allCandsEmpty = true) :
    SSRGenerationRun inferSSR ssrNoInline F = (F, true) := by
  rw [SSRGenerationRun]
  by_cases hi : inferSSR
  · by_cases ha : F.hasSSRAttr
    · simp [hi, ha]
    · simp [hi, ha, passChanged_of_empty F.tops h]
  · simp [hi]

theorem C4_no_change_amended_witness :
    (∀ T ∈ (⟨false, false, [LoopNest.node 0 [] (-1) []]⟩ : FuncModel).tops,
        T.allCandsEmpty = true) ∧
      SSRGenerationRun true false ⟨false, false, [LoopNest.node 0 [] (-1) []]⟩ =
        (⟨false, false, [LoopNest.node 0 [] (-1) []]⟩, true) :=
  ⟨by decide, C4_no_change_amended true false _ (by decide)⟩

/-- C4 counterexample: a single loop whose candidate set is non-empty but
whose estimated gain is negative satisfies the claim's premise ("empty or
negative everywhere"), yet the pass does change the function — the loop's
value is clamped to 0, `findBest` still selects it, expansion runs, the
`SSR` attribute is added and analyses are not preserved. -/
theorem C4_counterexample :
    LoopNest.allEmptyOrNeg negGainNest = true ∧
      negGainFunc.hasSSRAttr = false ∧
      (SSRGenerationRun true false negGainFunc).2 = false ∧
      (SSRGenerationRun true false negGainFunc).1.hasSSRAttr = true := by
  refine ⟨by decide, by decide, by decide, by decide⟩

/-- C5: for every combining function and every conflict tree with distinct
loops (the source asserts each loop is inserted once), the sequence of
loops returned by `findBest` contains no two loops such that one is a
tree-wise ancestor of the other. -/
theorem C5_findBest_no_ancestor (f : Nat → Nat → Nat) (t : CTree)
    (hnd : t.labels.Nodup) (a b : Nat)
    (ha : a ∈ (t.findBest f).2) (hb : b ∈ (t.findBest f).2) : ¬ t.Anc a b :=
  CTree.findBest_noAncSel f t hnd a b ha hb

theorem C5_findBest_no_ancestor_witness :
    (CTree.node 0 1 [CTree.node 1 2 []]).labels.Nodup ∧
      1 ∈ ((CTree.node 0 1 [CTree.node 1 2 []]).findBest driverCombine).2 ∧
      ¬ (CTree.node 0 1 [CTree.node 1 2 []]).Anc 1 1 :=
  ⟨by decide, by decide,
    C5_findBest_no_ancestor driverCombine (CTree.node 0 1 [CTree.node 1 2 []])
      (by decide) 1 1 (by decide) (by decide)⟩

/-- C6: if the guard `Cond` is the compile-time constant `false`,
`cloneAndSetup` returns before cloning and before emitting anything; if it
is the constant `true`, no clone is made and the setup, enable, and
disable sequences are emitted directly into the original region. -/
theorem C6_constant_guard (barrierFlag : Bool) (exp : List Nat) :
    cloneAndSetup barrierFlag (CondV.const false) exp = ⟨false, [], []⟩ ∧
      (exp ≠ [] →
        cloneAndSetup barrierFlag (CondV.const true) exp =
          ⟨false, phSeq exp.length, exSeq barrierFlag exp.length⟩) := by
  constructor
  · rw [cloneAndSetup]
    by_cases h : exp.length = 0 <;> simp [h]
  · intro hne
    have h : ¬ exp.length = 0 := by simpa using hne
    rw [cloneAndSetup, if_neg h]
    simp

theorem C6_constant_guard_witness :
    ([0] : List Nat) ≠ [] ∧
      cloneAndSetup true (CondV.const true) [0] = ⟨false, phSeq 1, exSeq true 1⟩ :=
  ⟨by decide, (C6_constant_guard true [0]).2 (by decide)⟩

/-- C7: a function already carrying the `SSR` attribute is left unchanged
with all analyses preserved, and running the pass twice in a row — whether
the first run changed the function (then it tagged it `SSR`) or not —
leaves the first run's result untouched with all analyses preserved. -/
theorem C7_second_run_no_change (inferSSR ssrNoInline : Bool) (F : FuncModel) :
    (F.hasSSRAttr = true → SSRGenerationRun inferSSR ssrNoInline F = (F, true)) ∧
      SSRGenerationRun inferSSR ssrNoInline
          (SSRGenerationRun inferSSR ssrNoInline F).1 =
        ((SSRGenerationRun inferSSR ssrNoInline F).1, true) := by
  constructor
  · intro ha
    rw [SSRGenerationRun]
    by_cases hi : inferSSR <;> simp [hi, ha]
  · by_cases hi : inferSSR
    · by_cases ha : F.hasSSRAttr
      · simp [SSRGenerationRun, hi, ha]
      · by_cases hch : passChanged F.tops
        · simp [SSRGenerationRun, hi, ha, hch]
        · simp [SSRGenerationRun, hi, ha, hch]
    · simp [SSRGenerationRun, hi]

theorem C7_second_run_no_change_witness :
    SSRGenerationRun true false (⟨true, false, []⟩ : FuncModel) =
      ((⟨true, false, []⟩ : FuncModel), true) :=
  (C7_second_run_no_change true false ⟨true, false, []⟩).1 rfl

/-- C8: with address-range checks enabled, the guard is the analysis
condition ANDed with, per expanded access, the conjunction of the unsigned
comparisons `0x100000 ≤ LowerBound` and `UpperBound ≤ 0x120000`; both
scratchpad bounds are inclusive (an access touching exactly the bounds
passes the check). -/
theorem C8_tcdm_guard (exp : List ExpandedAffAcc) (cond : Bool) :
    expandInLoopCond false exp cond = (cond && exp.all GenerateTCDMCheck) ∧
      (expandInLoopCond false exp cond = true ↔
        (cond = true ∧ ∀ e ∈ exp,
          SSR_SCRATCHPAD_BEGIN ≤ e.LowerBound ∧
            e.UpperBound ≤ SSR_SCRATCHPAD_END)) ∧
      GenerateTCDMCheck ⟨SSR_SCRATCHPAD_BEGIN, SSR_SCRATCHPAD_END⟩ = true := by
  refine ⟨?_, ?_, by decide⟩
  · rw [expandInLoopCond, if_neg (by simp)]
    exact tcdmFoldCond_eq exp cond
  · rw [expandInLoopCond, if_neg (by simp), tcdmFoldCond_eq]
    simp [GenerateTCDMCheck, List.all_eq_true]

/-- C9: the gain estimator is monotone in the `MEMOP_COST` parameter: for a
fixed candidate set (with no `Bad` conflict, on which the source asserts),
increasing `MEMOP_COST` never decreases the reported gain, because each
access's saturating trip product stays at least 1. -/
theorem C9_gain_monotone (fl : GainFlags) (env : Nat → AffAcc)
    (accIds : List Nat) (m1 m2 : Int) (hbad : NoBadConflict env accIds)
    (hm : m1 ≤ m2) :
    getEstGain fl m1 env accIds ≤ getEstGain fl m2 env accIds :=
  getEstGain_mono_aux fl env accIds hm

theorem C9_gain_monotone_witness :
    NoBadConflict (fun _ => accA0) [0] ∧ (1 : Int) ≤ 2 ∧
      getEstGain ⟨false, false, false⟩ 1 (fun _ => accA0) [0] ≤
        getEstGain ⟨false, false, false⟩ 2 (fun _ => accA0) [0] :=
  ⟨by intro id hid p hp; simp [accA0] at hp, by norm_num,
    C9_gain_monotone ⟨false, false, false⟩ (fun _ => accA0) [0] 1 2
      (by intro id hid p hp; simp [accA0] at hp) (by norm_num)⟩

/-- C10: `visitLoop` inserts `(unsigned)std::max(0, gain)` into the
conflict tree, so a negative estimated gain is recorded as value 0, the
tree stores no negative value, and a loop with negative estimated gain can
still be chosen by the selection (and, with a non-empty candidate set,
marks the function changed). -/
theorem C10_clamped_gain (g : Int) :
    ((visitVal g : Int) = max 0 g ∧ 0 ≤ (visitVal g : Int)) ∧
      (g < 0 → visitVal g = 0) ∧
      (LoopNest.node 0 [5] g []).toTree = CTree.node 0 (visitVal g) [] ∧
      ((negGainNest.toTree.findBest driverCombine).2 = [0] ∧
        topLoopChanged negGainNest = true) := by
  refine ⟨⟨?_, ?_⟩, ?_, ?_, by decide, by decide⟩
  · rw [visitVal, Int.toNat_of_nonneg (le_max_left 0 g)]
  · rw [visitVal, Int.toNat_of_nonneg (le_max_left 0 g)]
    exact le_max_left 0 g
  · intro hg
    rw [visitVal, max_eq_left (by omega), Int.toNat_zero]
  · rfl

theorem C10_clamped_gain_witness :
    (-3 : Int) < 0 ∧ visitVal (-3) = 0 :=
  ⟨by norm_num, (C10_clamped_gain (-3)).2.1 (by norm_num)⟩
